import Mathlib

/-!
Verification of the core of `parlai/mturk/webapp/server.py`: the
record-merging function `merge_assignments_with_pairings`, the live
connection registry of `SocketHandler` (open / on_message / on_close),
the broadcast helpers `broadcast_msg` and `send_to_sources`, and the
identity generator `get_rand_id`.

Python dictionaries are modelled as insertion-ordered association lists
over string keys (`alist_*` operations reproduce `d[k]`, `d[k] = v`,
`del d[k]`, `k in d`, `d.update(other)`, `d.values()` semantics,
including position-preserving overwrites).  Code that can raise
(`KeyError`, a failing websocket write, a JSON decode error) returns
`Except String`.  Side channels (`print`, `write_message`) are made
explicit as returned lists.
-/

/-- Python value in a row/dict; opaque string payloads suffice for all
properties considered here. -/
abbrev Val := String

/-- `alist_get? k d` is Python `d.get(k)`: the value at key `k`, if present. -/
def alist_get? {α : Type} (k : String) : List (String × α) → Option α
  | [] => none
  | (k', v) :: rest => if k' = k then some v else alist_get? k rest

/-- `alist_has k d` is Python `k in d`. -/
def alist_has {α : Type} (k : String) (d : List (String × α)) : Bool :=
  (alist_get? k d).isSome

/-- `alist_set k v d` is Python `d[k] = v`: replaces the value in place if
the key is present (keeping its position), otherwise appends. -/
def alist_set {α : Type} (k : String) (v : α) : List (String × α) → List (String × α)
  | [] => [(k, v)]
  | (k', v') :: rest => if k' = k then (k, v) :: rest else (k', v') :: alist_set k v rest

/-- `alist_del k d` is Python `d.pop(k, None)` / `del d[k]` on a present key:
removes the entry for `k` if there is one, otherwise leaves `d` unchanged. -/
def alist_del {α : Type} (k : String) : List (String × α) → List (String × α)
  | [] => []
  | (k', v') :: rest => if k' = k then rest else (k', v') :: alist_del k rest

/-- Python `d.keys()`. -/
def alist_keys {α : Type} (d : List (String × α)) : List String := d.map Prod.fst

/-- Python `list(d.values())`. -/
def alist_values {α : Type} (d : List (String × α)) : List α := d.map Prod.snd

/-- A decoded record: field name to value, Python `dict` semantics. -/
abbrev Dict := List (String × Val)

/-- A raw database row: the sequence of (column name, value) pairs. -/
abbrev Row := List (String × Val)

/-- `row_to_dict(row)` is `dict(zip(row.keys(), row))`. -/
def row_to_dict (row : Row) : Dict :=
  row.foldl (fun acc kv => alist_set kv.1 kv.2 acc) []

/-- `d.update(other)`: assign each key/value pair of `other` into `d`, in order. -/
def dict_update (d other : Dict) : Dict :=
  other.foldl (fun acc kv => alist_set kv.1 kv.2 acc) d

/-- The `processed_assignments` mapping: assignment_id to merged record. -/
abbrev PMap := List (String × Dict)

/-- The first loop of `merge_assignments_with_pairings` (server.py:221-223):
`processed_assignments[assign_dict['assignment_id']] = assign_dict` for each
row.  The subscript read raises `KeyError` when the column is absent. -/
def process_assignments : List Row → PMap → Except String PMap
  | [], m => .ok m
  | res :: rest, m =>
    let assign_dict := row_to_dict res
    match alist_get? "assignment_id" assign_dict with
    | none => .error "KeyError: assignment_id"
    | some aid => process_assignments rest (alist_set aid assign_dict m)

/-- One iteration of the pairing loop (server.py:224-232): convert the row,
read its `assignment_id` (KeyError if absent), print a diagnostic when the
id is missing from `processed_assignments`, rename `status` to
`world_status` (KeyError if `status` absent), then
`processed_assignments[assign_id].update(pairing_dict)` — which raises
`KeyError` when `assign_id` is not a key of the mapping. -/
def pairing_step (log_id : String) (acc : List String × Except String PMap) (res : Row) :
    List String × Except String PMap :=
  match acc with
  | (diags, .error e) => (diags, .error e)
  | (diags, .ok m) =>
    let pairing_dict := row_to_dict res
    match alist_get? "assignment_id" pairing_dict with
    | none => (diags, .error "KeyError: assignment_id")
    | some assign_id =>
      let diags1 := if alist_has assign_id m then diags
        else diags ++ ["assignment " ++ assign_id ++ " missing from assign table for " ++ log_id]
      match alist_get? "status" pairing_dict with
      | none => (diags1, .error "KeyError: status")
      | some status_val =>
        let pairing_dict2 :=
          alist_del "status" (alist_set "world_status" status_val pairing_dict)
        match alist_get? assign_id m with
        | none => (diags1, .error ("KeyError: " ++ assign_id))
        | some entry =>
          (diags1, .ok (alist_set assign_id (dict_update entry pairing_dict2) m))

/-- The pairing loop of `merge_assignments_with_pairings` (server.py:224-232). -/
def process_pairings (log_id : String) :
    List Row → List String × Except String PMap → List String × Except String PMap
  | [], acc => acc
  | res :: rest, acc => process_pairings log_id rest (pairing_step log_id acc res)

/-- `merge_assignments_with_pairings(assignments, pairings, log_id)`
(server.py:219-233).  Returns the diagnostics printed and either the list
`list(processed_assignments.values())` or the uncaught `KeyError`. -/
def merge_assignments_with_pairings (assignments pairings : List Row) (log_id : String) :
    List String × Except String (List Dict) :=
  match process_assignments assignments [] with
  | .error e => ([], .error e)
  | .ok m0 =>
    match process_pairings log_id pairings ([], .ok m0) with
    | (diags, .error e) => (diags, .error e)
    | (diags, .ok m) => (diags, .ok (alist_values m))

/-- Projection used to compare merge results: the successful output, if any. -/
def ok_output (r : List String × Except String (List Dict)) : Option (List Dict) :=
  match r.2 with
  | .ok v => some v
  | .error _ => none

/-- A live connection (Python object identity of a `SocketHandler`). -/
abbrev Conn := Nat

/-- A server-to-client message such as `json.dumps({'command': ..., 'data': ...})`. -/
structure ServerMsg where
  command : String
  data : String
deriving DecidableEq

/-- Lower-case hexadecimal digit characters, as produced by Python `hex`. -/
def hex_char : Nat → Char
  | 0 => '0' | 1 => '1' | 2 => '2' | 3 => '3'
  | 4 => '4' | 5 => '5' | 6 => '6' | 7 => '7'
  | 8 => '8' | 9 => '9' | 10 => 'a' | 11 => 'b'
  | 12 => 'c' | 13 => 'd' | 14 => 'e' | 15 => 'f'
  | _ + 16 => '?'

/-- Little-endian base-16 digits of `n`, computed with structural fuel. -/
def hex_digits_fuel : Nat → Nat → List Nat
  | 0, _ => []
  | _, 0 => []
  | fuel + 1, n + 1 => (n + 1) % 16 :: hex_digits_fuel fuel ((n + 1) / 16)

/-- Little-endian base-16 digits of `n` (`n` itself is enough fuel). -/
def hex_digits (n : Nat) : List Nat := hex_digits_fuel n n

/-- Value of a little-endian base-16 digit list. -/
def of_hex : List Nat → Nat
  | [] => 0
  | d :: ds => d + 16 * of_hex ds

/-- Python `hex(n)[2:]` for a natural `n`: most-significant-first lower-case
hex digits, and `"0"` for zero. -/
def nat_to_hex (n : Nat) : String :=
  if n = 0 then "0" else String.mk ((hex_digits n).reverse.map hex_char)

/-- `get_rand_id()` (server.py:42-43): `str(hex(int(time.time() * 10000000))[2:])`.
The clock reading `int(time.time() * 10000000)` is the explicit `tick` argument. -/
def get_rand_id (tick : Nat) : String := nat_to_hex tick

/-- The for-loop body of `broadcast_msg` (server.py:90-94): write the message
to each target in order; a failing `write_message` raises, aborting the
loop.  `write_fails` tells which targets' transports fail.  Returns the
(target, message) deliveries made and the outcome seen by the caller. -/
def broadcast_msg (target_subs : List Conn) (write_fails : Conn → Bool) (msg : ServerMsg) :
    List (Conn × ServerMsg) × Except String Unit :=
  match target_subs with
  | [] => ([], .ok ())
  | sub :: rest =>
    if write_fails sub then ([], .error "WebSocketClosedError")
    else
      let r := broadcast_msg rest write_fails msg
      ((sub, msg) :: r.1, r.2)

/-- `broadcast_msg(handler, msg)` with the default `target_subs =
handler.subs.values()`.  The function never writes to `handler.subs`, so the
registry is passed through unchanged. -/
def broadcast_to_subs (subs : List (String × Conn)) (write_fails : Conn → Bool)
    (msg : ServerMsg) :
    List (String × Conn) × (List (Conn × ServerMsg) × Except String Unit) :=
  (subs, broadcast_msg (alist_values subs) write_fails msg)

/-- `send_to_sources(handler, msg)` (server.py:97-100): write the message to
each value of `handler.sources`. -/
def send_to_sources (sources : List (String × Conn)) (msg : ServerMsg) :
    List (Conn × ServerMsg) :=
  (alist_values sources).map (fun s => (s, msg))

/-- `SocketHandler.broadcast_default` (server.py:113-118): the body is `pass`,
so no message is produced. -/
def broadcast_default (_targets : List Conn) : List ServerMsg := []

/-- `SocketHandler.open` (server.py:120-129): assign `self.sid =
get_rand_id()`, insert into `self.subs` when the handler is not already
registered, then send `{'command': 'register', 'data': self.sid}` followed
by whatever `broadcast_default([self])` sends.  Returns the assigned sid,
the updated subscriber mapping, and the messages written to the connection,
in order. -/
def socket_open (conn : Conn) (tick : Nat) (subs : List (String × Conn)) :
    String × List (String × Conn) × List ServerMsg :=
  let sid := get_rand_id tick
  let subs1 := if conn ∈ alist_values subs then subs else alist_set sid conn subs
  let sent := [ServerMsg.mk "register" sid] ++ broadcast_default [conn]
  (sid, subs1, sent)

/-- `SocketHandler.on_message` (server.py:131-140): log the raw payload,
then decode it — `tornado.escape.json_decode` raises on malformed input and
the handler does not catch the exception — then read `cmd` and do nothing.
`decoded` is the outcome of the external JSON decoder on `message`.
Returns (log lines, messages sent, handler outcome). -/
def on_message (message : String) (decoded : Except String Dict) :
    List String × List ServerMsg × Except String Unit :=
  let logs := ["from web client: " ++ message]
  match decoded with
  | .error e => (logs, [], .error e)
  | .ok msg =>
    match alist_get? "cmd" msg with
    | some c => if c = "todo" then (logs, [], .ok ()) else (logs, [], .ok ())
    | none => (logs, [], .ok ())

/-- `SocketHandler.on_close` (server.py:142-144): if the handler is among
`self.subs.values()`, `self.subs.pop(self.sid, None)`. -/
def on_close (conn : Conn) (sid : String) (subs : List (String × Conn)) :
    List (String × Conn) :=
  if conn ∈ alist_values subs then alist_del sid subs else subs

/-- An externally triggered event on the application's socket handlers. -/
inductive AppEvent where
  | conn_open (conn : Conn) (tick : Nat)
  | conn_message (conn : Conn) (payload : String) (decoded : Except String Dict)
  | conn_close (conn : Conn) (sid : String)

/-- The registry state of `Application` (server.py:67-74): the `subs` and
`sources` mappings. -/
structure AppState where
  subs : List (String × Conn)
  sources : List (String × Conn)

/-- `Application.__init__`: `self.subs = {}`, `self.sources = {}`. -/
def init_state : AppState := AppState.mk [] []

/-- Effect of one socket event on the registry state.  `open` and `on_close`
mutate only `subs` (server.py:120-129, 142-144); `on_message` mutates
neither mapping (server.py:131-140); nothing in the program writes to
`sources`. -/
def app_step (st : AppState) (ev : AppEvent) : AppState :=
  match ev with
  | .conn_open c t => AppState.mk (socket_open c t st.subs).2.1 st.sources
  | .conn_message _ _ _ => st
  | .conn_close c sid => AppState.mk (on_close c sid st.subs) st.sources


/-! ### Association-list (Python dict) lemmas -/

@[simp] theorem alist_keys_nil {α : Type} : alist_keys ([] : List (String × α)) = [] := rfl

@[simp] theorem alist_keys_cons {α : Type} (kv : String × α) (m : List (String × α)) :
    alist_keys (kv :: m) = kv.1 :: alist_keys m := rfl

@[simp] theorem alist_values_nil {α : Type} : alist_values ([] : List (String × α)) = [] := rfl

@[simp] theorem alist_values_cons {α : Type} (kv : String × α) (m : List (String × α)) :
    alist_values (kv :: m) = kv.2 :: alist_values m := rfl

theorem alist_keys_append {α : Type} (m l : List (String × α)) :
    alist_keys (m ++ l) = alist_keys m ++ alist_keys l := by
  simp [alist_keys]

theorem alist_values_append {α : Type} (m l : List (String × α)) :
    alist_values (m ++ l) = alist_values m ++ alist_values l := by
  simp [alist_values]

theorem alist_get?_set_self {α : Type} (k : String) (v : α) (m : List (String × α)) :
    alist_get? k (alist_set k v m) = some v := by
  induction m with
  | nil => simp [alist_set, alist_get?]
  | cons kv rest ih =>
    obtain ⟨k', v'⟩ := kv
    by_cases h : k' = k
    · simp [alist_set, alist_get?, h]
    · simp [alist_set, alist_get?, h, ih]

theorem alist_get?_set_ne {α : Type} {k k' : String} (h : k' ≠ k) (v : α)
    (m : List (String × α)) : alist_get? k (alist_set k' v m) = alist_get? k m := by
  have hne : ¬ k = k' := fun hh => h hh.symm
  induction m with
  | nil => simp [alist_set, alist_get?, h]
  | cons kv rest ih =>
    obtain ⟨k0, v0⟩ := kv
    by_cases h0 : k0 = k'
    · subst h0
      simp [alist_set, alist_get?, h]
    · by_cases h1 : k0 = k
      · subst h1
        simp [alist_set, alist_get?, h0, hne]
      · simp [alist_set, alist_get?, h0, h1, ih]

theorem alist_mem_keys_of_get?_eq_some {α : Type} {k : String} {v : α}
    {m : List (String × α)} (h : alist_get? k m = some v) : k ∈ alist_keys m := by
  induction m with
  | nil => simp [alist_get?] at h
  | cons kv rest ih =>
    obtain ⟨k0, v0⟩ := kv
    by_cases h0 : k0 = k
    · subst h0
      simp
    · simp [alist_get?, h0] at h
      simp [List.mem_cons]
      exact Or.inr (ih h)

theorem alist_get?_eq_none_of_not_mem {α : Type} {k : String}
    {m : List (String × α)} (h : k ∉ alist_keys m) : alist_get? k m = none := by
  cases hg : alist_get? k m with
  | none => rfl
  | some v => exact absurd (alist_mem_keys_of_get?_eq_some hg) h

theorem alist_get?_isSome_of_mem {α : Type} {k : String} {m : List (String × α)}
    (h : k ∈ alist_keys m) : (alist_get? k m).isSome = true := by
  induction m with
  | nil => simp at h
  | cons kv rest ih =>
    obtain ⟨k0, v0⟩ := kv
    by_cases h0 : k0 = k
    · simp [alist_get?, h0]
    · simp only [alist_keys_cons, List.mem_cons] at h
      rcases h with h | h
      · exact absurd h.symm h0
      · simp [alist_get?, h0, ih h]

theorem alist_keys_set_of_mem {α : Type} {k : String} (v : α)
    {m : List (String × α)} (h : k ∈ alist_keys m) :
    alist_keys (alist_set k v m) = alist_keys m := by
  induction m with
  | nil => simp at h
  | cons kv rest ih =>
    obtain ⟨k0, v0⟩ := kv
    by_cases h0 : k0 = k
    · subst h0
      simp [alist_set]
    · simp only [alist_keys_cons, List.mem_cons] at h
      rcases h with h | h
      · exact absurd h.symm h0
      · simp [alist_set, h0, ih h]

theorem alist_set_eq_append_of_not_mem {α : Type} {k : String} (v : α)
    {m : List (String × α)} (h : k ∉ alist_keys m) :
    alist_set k v m = m ++ [(k, v)] := by
  induction m with
  | nil => simp [alist_set]
  | cons kv rest ih =>
    obtain ⟨k0, v0⟩ := kv
    simp only [alist_keys_cons, List.mem_cons] at h
    push_neg at h
    have h1 : ¬ k0 = k := fun hh => h.1 hh.symm
    simp [alist_set, h1, ih h.2]

theorem alist_del_of_not_mem {α : Type} {k : String}
    {m : List (String × α)} (h : k ∉ alist_keys m) : alist_del k m = m := by
  induction m with
  | nil => simp [alist_del]
  | cons kv rest ih =>
    obtain ⟨k0, v0⟩ := kv
    simp only [alist_keys_cons, List.mem_cons] at h
    push_neg at h
    have h1 : ¬ k0 = k := fun hh => h.1 hh.symm
    simp [alist_del, h1, ih h.2]

theorem alist_del_append_self {α : Type} {k : String} (v : α)
    {m : List (String × α)} (h : k ∉ alist_keys m) :
    alist_del k (m ++ [(k, v)]) = m := by
  induction m with
  | nil => simp [alist_del]
  | cons kv rest ih =>
    obtain ⟨k0, v0⟩ := kv
    simp only [alist_keys_cons, List.mem_cons] at h
    push_neg at h
    have h1 : ¬ k0 = k := fun hh => h.1 hh.symm
    simp [alist_del, h1, ih h.2]

theorem alist_mem_values_of_get? {α : Type} {k : String} {v : α}
    {m : List (String × α)} (h : alist_get? k m = some v) : v ∈ alist_values m := by
  induction m with
  | nil => simp [alist_get?] at h
  | cons kv rest ih =>
    obtain ⟨k0, v0⟩ := kv
    by_cases h0 : k0 = k
    · subst h0
      simp [alist_get?] at h
      simp [h]
    · simp [alist_get?, h0] at h
      simp [List.mem_cons]
      exact Or.inr (ih h)

theorem alist_exists_key_of_mem_values {α : Type} {v : α}
    {m : List (String × α)} (h : v ∈ alist_values m) : ∃ k, (k, v) ∈ m := by
  induction m with
  | nil => simp at h
  | cons kv rest ih =>
    obtain ⟨k0, v0⟩ := kv
    simp only [alist_values_cons, List.mem_cons] at h
    rcases h with h | h
    · exact ⟨k0, by simp [h]⟩
    · obtain ⟨k, hk⟩ := ih h
      exact ⟨k, by simp [hk]⟩

theorem alist_mem_keys_of_mem {α : Type} {k : String} {v : α}
    {m : List (String × α)} (h : (k, v) ∈ m) : k ∈ alist_keys m :=
  List.mem_map_of_mem Prod.fst h

theorem alist_mem_set_elim {α : Type} {k : String} {v : α} {kd : String × α}
    {m : List (String × α)} (h : kd ∈ alist_set k v m) : kd = (k, v) ∨ kd ∈ m := by
  induction m with
  | nil =>
    simp [alist_set] at h
    exact Or.inl h
  | cons kv0 rest ih =>
    obtain ⟨k0, v0⟩ := kv0
    by_cases h0 : k0 = k
    · simp [alist_set, h0] at h
      rcases h with h | h
      · exact Or.inl h
      · exact Or.inr (List.mem_cons_of_mem _ h)
    · simp [alist_set, h0] at h
      rcases h with h | h
      · exact Or.inr (by simp [h])
      · rcases ih h with h1 | h1
        · exact Or.inl h1
        · exact Or.inr (List.mem_cons_of_mem _ h1)

theorem alist_mem_keys_set_self {α : Type} (k : String) (v : α)
    (m : List (String × α)) : k ∈ alist_keys (alist_set k v m) :=
  alist_mem_keys_of_get?_eq_some (alist_get?_set_self k v m)

theorem alist_set_comm_of_mem {α : Type} {k1 k2 : String} (h : k1 ≠ k2) (v1 v2 : α)
    {m : List (String × α)} (hm1 : k1 ∈ alist_keys m) (hm2 : k2 ∈ alist_keys m) :
    alist_set k1 v1 (alist_set k2 v2 m) = alist_set k2 v2 (alist_set k1 v1 m) := by
  have h' : ¬ k2 = k1 := fun hh => h hh.symm
  induction m with
  | nil => simp at hm1
  | cons kv rest ih =>
    obtain ⟨k0, v0⟩ := kv
    by_cases e1 : k0 = k1
    · subst e1
      have e2 : ¬ k0 = k2 := fun hh => h hh
      simp [alist_set, e2, h, h']
    · by_cases e2 : k0 = k2
      · subst e2
        simp [alist_set, e1, h, h']
      · have hm1' : k1 ∈ alist_keys rest := by
          simp only [alist_keys_cons, List.mem_cons] at hm1
          rcases hm1 with hh | hh
          · exact absurd hh.symm e1
          · exact hh
        have hm2' : k2 ∈ alist_keys rest := by
          simp only [alist_keys_cons, List.mem_cons] at hm2
          rcases hm2 with hh | hh
          · exact absurd hh.symm e2
          · exact hh
        simp [alist_set, e1, e2, ih hm1' hm2']

theorem alist_get?_del_ne {α : Type} {k k' : String} (h : k' ≠ k)
    (m : List (String × α)) : alist_get? k (alist_del k' m) = alist_get? k m := by
  have hne : ¬ k = k' := fun hh => h hh.symm
  induction m with
  | nil => simp [alist_del]
  | cons kv rest ih =>
    obtain ⟨k0, v0⟩ := kv
    by_cases h0 : k0 = k'
    · subst h0
      simp [alist_del, alist_get?, h]
    · by_cases h1 : k0 = k
      · subst h1
        simp [alist_del, alist_get?, h0, hne]
      · simp [alist_del, alist_get?, h0, h1, ih]

theorem alist_exists_val_of_mem_keys {α : Type} {a : String} {m : List (String × α)}
    (h : a ∈ alist_keys m) : ∃ v, (a, v) ∈ m := by
  rw [alist_keys, List.mem_map] at h
  obtain ⟨x, hx, hfst⟩ := h
  exact ⟨x.2, by rw [← hfst]; simpa using hx⟩

theorem alist_mem_keys_set_elim {α : Type} {k' k : String} {v : α}
    {m : List (String × α)} (h : k' ∈ alist_keys (alist_set k v m)) :
    k' = k ∨ k' ∈ alist_keys m := by
  obtain ⟨w, hw⟩ := alist_exists_val_of_mem_keys h
  rcases alist_mem_set_elim hw with h1 | h1
  · exact Or.inl (congrArg Prod.fst h1)
  · exact Or.inr (alist_mem_keys_of_mem h1)

theorem alist_get?_dict_update_of_not_mem {k : String} {o : Dict}
    (h : k ∉ alist_keys o) (d : Dict) :
    alist_get? k (dict_update d o) = alist_get? k d := by
  induction o generalizing d with
  | nil => rfl
  | cons kv rest ih =>
    obtain ⟨k0, v0⟩ := kv
    simp only [alist_keys_cons, List.mem_cons] at h
    push_neg at h
    show alist_get? k (dict_update (alist_set k0 v0 d) rest) = alist_get? k d
    rw [ih h.2, alist_get?_set_ne (Ne.symm h.1)]

theorem alist_get?_dict_update_of_some {k : String} {v : Val} {o : Dict}
    (ho : (alist_keys o).Nodup) (h : alist_get? k o = some v) (d : Dict) :
    alist_get? k (dict_update d o) = some v := by
  induction o generalizing d with
  | nil => simp [alist_get?] at h
  | cons kv rest ih =>
    obtain ⟨k0, v0⟩ := kv
    simp only [alist_keys_cons, List.nodup_cons] at ho
    by_cases h0 : k0 = k
    · subst h0
      simp [alist_get?] at h
      show alist_get? k0 (dict_update (alist_set k0 v0 d) rest) = some v
      rw [alist_get?_dict_update_of_not_mem ho.1, alist_get?_set_self, h]
    · simp [alist_get?, h0] at h
      show alist_get? k (dict_update (alist_set k0 v0 d) rest) = some v
      exact ih ho.2 h _

theorem alist_keys_nodup_set {α : Type} (k : String) (v : α) {m : List (String × α)}
    (h : (alist_keys m).Nodup) : (alist_keys (alist_set k v m)).Nodup := by
  by_cases hm : k ∈ alist_keys m
  · rw [alist_keys_set_of_mem v hm]; exact h
  · rw [alist_set_eq_append_of_not_mem v hm, alist_keys_append, List.nodup_append]
    refine ⟨h, List.nodup_singleton k, ?_⟩
    intro a ha hb
    simp at hb
    exact hm (hb ▸ ha)

theorem alist_mem_keys_of_mem_keys_del {α : Type} {a k : String} {m : List (String × α)}
    (h : a ∈ alist_keys (alist_del k m)) : a ∈ alist_keys m := by
  induction m with
  | nil => simp [alist_del] at h
  | cons kv rest ih =>
    obtain ⟨k0, v0⟩ := kv
    by_cases h0 : k0 = k
    · simp [alist_del, h0] at h
      exact List.mem_cons_of_mem _ h
    · simp only [alist_del, h0, if_false, ite_false, alist_keys_cons, List.mem_cons] at h ⊢
      rcases h with h | h
      · exact Or.inl h
      · exact Or.inr (ih h)

theorem alist_keys_nodup_del {α : Type} (k : String) {m : List (String × α)}
    (h : (alist_keys m).Nodup) : (alist_keys (alist_del k m)).Nodup := by
  induction m with
  | nil => simp [alist_del]
  | cons kv rest ih =>
    obtain ⟨k0, v0⟩ := kv
    simp only [alist_keys_cons, List.nodup_cons] at h
    by_cases h0 : k0 = k
    · simp [alist_del, h0, h.2]
    · simp only [alist_del, h0, if_false, ite_false, alist_keys_cons, List.nodup_cons]
      exact ⟨fun hmem => h.1 (alist_mem_keys_of_mem_keys_del hmem), ih h.2⟩

theorem foldl_set_keys_nodup {α : Type} (r : List (String × α)) :
    ∀ acc : List (String × α), (alist_keys acc).Nodup →
      (alist_keys (r.foldl (fun acc kv => alist_set kv.1 kv.2 acc) acc)).Nodup := by
  induction r with
  | nil => intro acc h; exact h
  | cons kv rest ih => intro acc h; exact ih _ (alist_keys_nodup_set kv.1 kv.2 h)

theorem row_to_dict_keys_nodup (r : Row) : (alist_keys (row_to_dict r)).Nodup :=
  foldl_set_keys_nodup r [] (by simp)

/-! ### Pairing-loop lemmas -/

theorem pairing_step_error (log_id : String) (ds : List String) (e : String) (p : Row) :
    pairing_step log_id (ds, .error e) p = (ds, .error e) := rfl

theorem process_pairings_error (log_id : String) (P : List Row) (ds : List String)
    (e : String) : process_pairings log_id P (ds, .error e) = (ds, .error e) := by
  induction P with
  | nil => rfl
  | cons p rest ih => simpa [process_pairings, pairing_step_error] using ih

theorem pairing_step_eq (log_id : String) (ds : List String) (m : PMap) (p : Row)
    {k sv : String} {e : Dict}
    (h1 : alist_get? "assignment_id" (row_to_dict p) = some k)
    (h2 : alist_get? "status" (row_to_dict p) = some sv)
    (h3 : alist_get? k m = some e) :
    pairing_step log_id (ds, .ok m) p =
      (ds, .ok (alist_set k (dict_update e
        (alist_del "status" (alist_set "world_status" sv (row_to_dict p)))) m)) := by
  have hh : alist_has k m = true := by simp [alist_has, h3]
  simp [pairing_step, h1, h2, h3, hh]

theorem pairing_step_ok_elim {log_id : String} {ds ds1 : List String} {m m1 : PMap}
    {p : Row} (h : pairing_step log_id (ds, .ok m) p = (ds1, .ok m1)) :
    ds1 = ds ∧ ∃ k sv e, alist_get? "assignment_id" (row_to_dict p) = some k ∧
      alist_get? "status" (row_to_dict p) = some sv ∧ alist_get? k m = some e ∧
      m1 = alist_set k (dict_update e
        (alist_del "status" (alist_set "world_status" sv (row_to_dict p)))) m := by
  cases hk : alist_get? "assignment_id" (row_to_dict p) with
  | none => simp [pairing_step, hk] at h
  | some k =>
    cases hs : alist_get? "status" (row_to_dict p) with
    | none => simp [pairing_step, hk, hs] at h
    | some sv =>
      cases he : alist_get? k m with
      | none => simp [pairing_step, hk, hs, he, alist_has] at h
      | some e =>
        rw [pairing_step_eq log_id ds m p hk hs he] at h
        rw [Prod.mk.injEq] at h
        exact ⟨h.1.symm, k, sv, e, rfl, rfl, he, (Except.ok.inj h.2).symm⟩

theorem process_pairings_ok_cons {log_id : String} {p : Row} {P : List Row}
    {ds ds' : List String} {m mf : PMap}
    (h : process_pairings log_id (p :: P) (ds, .ok m) = (ds', .ok mf)) :
    ∃ m1, pairing_step log_id (ds, .ok m) p = (ds, .ok m1) ∧
      process_pairings log_id P (ds, .ok m1) = (ds', .ok mf) := by
  have h2 : process_pairings log_id P (pairing_step log_id (ds, .ok m) p) =
      (ds', .ok mf) := h
  rcases hstep : pairing_step log_id (ds, .ok m) p with ⟨ds1, E1⟩
  rw [hstep] at h2
  cases E1 with
  | error e =>
    rw [process_pairings_error] at h2
    simp at h2
  | ok m1 =>
    have hds := (pairing_step_ok_elim hstep).1
    subst hds
    exact ⟨m1, rfl, h2⟩

theorem process_pairings_ok_keys {log_id : String} {P : List Row} :
    ∀ {ds ds' : List String} {m mf : PMap},
      process_pairings log_id P (ds, .ok m) = (ds', .ok mf) →
      alist_keys mf = alist_keys m := by
  induction P with
  | nil =>
    intro ds ds' m mf h
    have h' : ((ds, .ok m) : List String × Except String PMap) = (ds', .ok mf) := h
    rw [Prod.mk.injEq] at h'
    rw [← Except.ok.inj h'.2]
  | cons p rest ih =>
    intro ds ds' m mf h
    obtain ⟨m1, hstep, hrest⟩ := process_pairings_ok_cons h
    obtain ⟨-, k, sv, e, hk, hs, he, hm1⟩ := pairing_step_ok_elim hstep
    have hkm : k ∈ alist_keys m := alist_mem_keys_of_get?_eq_some he
    rw [ih hrest, hm1, alist_keys_set_of_mem _ hkm]

theorem process_pairings_ok_get_preserve {log_id : String} {P : List Row} {k : String} :
    ∀ {ds ds' : List String} {m mf : PMap},
      (∀ p ∈ P, alist_get? "assignment_id" (row_to_dict p) ≠ some k) →
      process_pairings log_id P (ds, .ok m) = (ds', .ok mf) →
      alist_get? k mf = alist_get? k m := by
  induction P with
  | nil =>
    intro ds ds' m mf hnp h
    have h' : ((ds, .ok m) : List String × Except String PMap) = (ds', .ok mf) := h
    rw [Prod.mk.injEq] at h'
    rw [← Except.ok.inj h'.2]
  | cons p rest ih =>
    intro ds ds' m mf hnp h
    obtain ⟨m1, hstep, hrest⟩ := process_pairings_ok_cons h
    obtain ⟨-, k', sv, e, hk', hs, he, hm1⟩ := pairing_step_ok_elim hstep
    have hne : k' ≠ k := by
      intro hh
      subst hh
      exact hnp p (List.mem_cons_self p rest) hk'
    rw [ih (fun q hq => hnp q (List.mem_cons_of_mem _ hq)) hrest, hm1,
      alist_get?_set_ne hne]

theorem process_pairings_ok_invariant {log_id : String} {P : List Row} :
    ∀ {ds ds' : List String} {m mf : PMap},
      (∀ kd ∈ m, alist_get? "assignment_id" kd.2 = some kd.1) →
      process_pairings log_id P (ds, .ok m) = (ds', .ok mf) →
      ∀ kd ∈ mf, alist_get? "assignment_id" kd.2 = some kd.1 := by
  induction P with
  | nil =>
    intro ds ds' m mf hinv h
    have h' : ((ds, .ok m) : List String × Except String PMap) = (ds', .ok mf) := h
    rw [Prod.mk.injEq] at h'
    rw [← Except.ok.inj h'.2]
    exact hinv
  | cons p rest ih =>
    intro ds ds' m mf hinv h
    obtain ⟨m1, hstep, hrest⟩ := process_pairings_ok_cons h
    obtain ⟨-, k, sv, e, hk, hs, he, hm1⟩ := pairing_step_ok_elim hstep
    refine ih ?_ hrest
    subst hm1
    intro kd hkd
    rcases alist_mem_set_elim hkd with hkd | hkd
    · subst hkd
      have hnodup : (alist_keys (alist_del "status"
          (alist_set "world_status" sv (row_to_dict p)))).Nodup :=
        alist_keys_nodup_del _ (alist_keys_nodup_set _ _ (row_to_dict_keys_nodup p))
      have hid : alist_get? "assignment_id" (alist_del "status"
          (alist_set "world_status" sv (row_to_dict p))) = some k := by
        rw [alist_get?_del_ne (by decide), alist_get?_set_ne (by decide)]
        exact hk
      exact alist_get?_dict_update_of_some hnodup hid e
    · exact hinv kd hkd

/-! ### Assignment-loop lemmas -/

theorem process_assignments_ok_cons {res : Row} {A : List Row} {m mf : PMap}
    (h : process_assignments (res :: A) m = .ok mf) :
    ∃ aid, alist_get? "assignment_id" (row_to_dict res) = some aid ∧
      process_assignments A (alist_set aid (row_to_dict res) m) = .ok mf := by
  cases hk : alist_get? "assignment_id" (row_to_dict res) with
  | none => simp [process_assignments, hk] at h
  | some aid => exact ⟨aid, rfl, by simpa [process_assignments, hk] using h⟩

theorem process_assignments_ok_keys {A : List Row} :
    ∀ {m mf : PMap}, process_assignments A m = .ok mf →
      ∀ k ∈ alist_keys mf, k ∈ alist_keys m ∨
        ∃ r ∈ A, alist_get? "assignment_id" (row_to_dict r) = some k := by
  induction A with
  | nil =>
    intro m mf h k hk
    rw [← Except.ok.inj h] at hk
    exact Or.inl hk
  | cons res rest ih =>
    intro m mf h k hk
    obtain ⟨aid, hres, hrest⟩ := process_assignments_ok_cons h
    rcases ih hrest k hk with hm | hfound
    · rcases alist_mem_keys_set_elim hm with h1 | h1
      · subst h1
        exact Or.inr ⟨res, List.mem_cons_self res rest, hres⟩
      · exact Or.inl h1
    · obtain ⟨r, hr, hid⟩ := hfound
      exact Or.inr ⟨r, List.mem_cons_of_mem _ hr, hid⟩

theorem process_assignments_ok_invariant {A : List Row} :
    ∀ {m mf : PMap}, (∀ kd ∈ m, alist_get? "assignment_id" kd.2 = some kd.1) →
      process_assignments A m = .ok mf →
      ∀ kd ∈ mf, alist_get? "assignment_id" kd.2 = some kd.1 := by
  induction A with
  | nil =>
    intro m mf hinv h
    rw [← Except.ok.inj h]
    exact hinv
  | cons res rest ih =>
    intro m mf hinv h
    obtain ⟨aid, hres, hrest⟩ := process_assignments_ok_cons h
    refine ih ?_ hrest
    intro kd hkd
    rcases alist_mem_set_elim hkd with h1 | h1
    · subst h1
      exact hres
    · exact hinv kd h1

theorem process_assignments_ok_get_preserve {A : List Row} {aid : String} {d : Dict} :
    ∀ {m mf : PMap}, alist_get? aid m = some d →
      (∀ r ∈ A, alist_get? "assignment_id" (row_to_dict r) = some aid →
        row_to_dict r = d) →
      process_assignments A m = .ok mf → alist_get? aid mf = some d := by
  induction A with
  | nil =>
    intro m mf hget hall h
    rw [← Except.ok.inj h]
    exact hget
  | cons res rest ih =>
    intro m mf hget hall h
    obtain ⟨k, hres, hrest⟩ := process_assignments_ok_cons h
    by_cases hk : k = aid
    · subst hk
      have heq : row_to_dict res = d := hall res (List.mem_cons_self res rest) hres
      refine ih ?_ (fun r hr => hall r (List.mem_cons_of_mem _ hr)) hrest
      rw [alist_get?_set_self, heq]
    · refine ih ?_ (fun r hr => hall r (List.mem_cons_of_mem _ hr)) hrest
      rw [alist_get?_set_ne hk]
      exact hget

theorem process_assignments_ok_get_unique {A : List Row} {r : Row} {aid : String} :
    ∀ {m mf : PMap}, r ∈ A →
      alist_get? "assignment_id" (row_to_dict r) = some aid →
      (∀ r' ∈ A, alist_get? "assignment_id" (row_to_dict r') = some aid →
        row_to_dict r' = row_to_dict r) →
      process_assignments A m = .ok mf →
      alist_get? aid mf = some (row_to_dict r) := by
  induction A with
  | nil => intro m mf hr; simp at hr
  | cons res rest ih =>
    intro m mf hr hid huniq h
    obtain ⟨k, hres, hrest⟩ := process_assignments_ok_cons h
    by_cases hk : k = aid
    · subst hk
      have heq : row_to_dict res = row_to_dict r :=
        huniq res (List.mem_cons_self res rest) hres
      exact process_assignments_ok_get_preserve
        (by rw [alist_get?_set_self, heq])
        (fun r' hr' hid' => huniq r' (List.mem_cons_of_mem _ hr') hid') hrest
    · have hr' : r ∈ rest := by
        rcases List.mem_cons.mp hr with h1 | h1
        · exfalso
          apply hk
          rw [h1] at hid
          exact Option.some.inj (hres.symm.trans hid)
        · exact h1
      exact ih hr' hid
        (fun r' hr2 hid' => huniq r' (List.mem_cons_of_mem _ hr2) hid') hrest

/-! ### Merge inversion -/

theorem merge_ok_elim {A P : List Row} {l : String} {ds : List String}
    {out : List Dict}
    (h : merge_assignments_with_pairings A P l = (ds, .ok out)) :
    ∃ m0 mf, process_assignments A [] = .ok m0 ∧
      process_pairings l P ([], .ok m0) = (ds, .ok mf) ∧ out = alist_values mf := by
  cases hA : process_assignments A [] with
  | error e =>
    have hm : merge_assignments_with_pairings A P l = ([], .error e) := by
      simp [merge_assignments_with_pairings, hA]
    rw [hm] at h
    simp at h
  | ok m0 =>
    rcases hP : process_pairings l P ([], .ok m0) with ⟨dsf, Ef⟩
    cases Ef with
    | error e =>
      have hm : merge_assignments_with_pairings A P l = (dsf, .error e) := by
        simp [merge_assignments_with_pairings, hA, hP]
      rw [hm] at h
      simp at h
    | ok mf =>
      have hm : merge_assignments_with_pairings A P l = (dsf, .ok (alist_values mf)) := by
        simp [merge_assignments_with_pairings, hA, hP]
      rw [hm] at h
      have hds : dsf = ds := congrArg Prod.fst h
      have hout : alist_values mf = out := Except.ok.inj (congrArg Prod.snd h)
      exact ⟨m0, mf, rfl, by rw [hP, hds], hout.symm⟩

/-! ### Commutation of pairing updates at distinct, present assignment ids -/

theorem pairing_step_swap (log_id : String) (a : List String × Except String PMap)
    (p q : Row) {m2 : PMap}
    (hpq : alist_get? "assignment_id" (row_to_dict p) ≠
      alist_get? "assignment_id" (row_to_dict q))
    (hok : (pairing_step log_id (pairing_step log_id a p) q).2 = .ok m2) :
    pairing_step log_id (pairing_step log_id a p) q =
      pairing_step log_id (pairing_step log_id a q) p := by
  obtain ⟨ds, E⟩ := a
  cases E with
  | error e => rfl
  | ok m =>
    rcases h1 : pairing_step log_id (ds, .ok m) p with ⟨d1, E1⟩
    cases E1 with
    | error e1 =>
      rw [h1, pairing_step_error] at hok
      simp at hok
    | ok m1 =>
      obtain ⟨hd1, k1, sv1, e1, hk1, hs1, he1, hm1⟩ := pairing_step_ok_elim h1
      subst d1
      rw [h1] at hok
      rcases h2 : pairing_step log_id (ds, .ok m1) q with ⟨d2, E2⟩
      rw [h2] at hok
      cases E2 with
      | error e2 => simp at hok
      | ok m2' =>
        obtain ⟨hd2, k2, sv2, e2, hk2, hs2, he2, hm2⟩ := pairing_step_ok_elim h2
        subst d2
        have hkk : k1 ≠ k2 := by
          intro hh
          apply hpq
          rw [hk1, hk2, hh]
        have he2' : alist_get? k2 m = some e2 := by
          rw [hm1] at he2
          rwa [alist_get?_set_ne hkk] at he2
        subst hm2
        subst hm1
        rw [pairing_step_eq log_id ds m q hk2 hs2 he2']
        have he1' : alist_get? k1 (alist_set k2 (dict_update e2
            (alist_del "status" (alist_set "world_status" sv2 (row_to_dict q)))) m) =
            some e1 := by
          rw [alist_get?_set_ne (Ne.symm hkk)]
          exact he1
        rw [pairing_step_eq log_id ds _ p hk1 hs1 he1']
        rw [Prod.mk.injEq]
        refine ⟨rfl, ?_⟩
        rw [Except.ok.injEq]
        exact alist_set_comm_of_mem (Ne.symm hkk) _ _
          (alist_mem_keys_of_get?_eq_some he2')
          (alist_mem_keys_of_get?_eq_some he1)

theorem process_pairings_perm (log_id : String) {P Q : List Row} (hperm : P.Perm Q) :
    P.Pairwise (fun p q => alist_get? "assignment_id" (row_to_dict p) ≠
      alist_get? "assignment_id" (row_to_dict q)) →
    ∀ (a : List String × Except String PMap) (ds : List String) (mf : PMap),
      process_pairings log_id P a = (ds, .ok mf) →
      process_pairings log_id Q a = (ds, .ok mf) := by
  induction hperm with
  | nil =>
    intro _ a ds mf h
    exact h
  | cons x hp ih =>
    intro hdist a ds mf h
    exact ih hdist.of_cons (pairing_step log_id a x) ds mf h
  | swap x y rest =>
    intro hdist a ds mf h
    have hxy : alist_get? "assignment_id" (row_to_dict y) ≠
        alist_get? "assignment_id" (row_to_dict x) := by
      cases hdist with
      | cons h1 h2 => exact h1 x (List.mem_cons_self x rest)
    rcases hb : pairing_step log_id (pairing_step log_id a y) x with ⟨bd, bE⟩
    cases bE with
    | error e =>
      have h' : process_pairings log_id rest
          (pairing_step log_id (pairing_step log_id a y) x) = (ds, .ok mf) := h
      rw [hb, process_pairings_error] at h'
      simp at h'
    | ok mb =>
      have hswap := pairing_step_swap log_id a y x hxy (by rw [hb])
      have hgoal : process_pairings log_id rest
          (pairing_step log_id (pairing_step log_id a x) y) = (ds, .ok mf) := by
        rw [← hswap]
        exact h
      exact hgoal
  | trans hpq hqr ih1 ih2 =>
    intro hdist a ds mf h
    have hdist2 := (List.Perm.pairwise_iff (fun hh => Ne.symm hh) hpq).mp hdist
    exact ih2 hdist2 a ds mf (ih1 hdist a ds mf h)

/-! ### Hexadecimal identity lemmas -/

theorem hex_digits_fuel_lt (fuel : Nat) : ∀ (n : Nat), ∀ d ∈ hex_digits_fuel fuel n, d < 16 := by
  induction fuel with
  | zero =>
    intro n d hd
    simp [hex_digits_fuel] at hd
  | succ fuel ih =>
    intro n d hd
    cases n with
    | zero => simp [hex_digits_fuel] at hd
    | succ n =>
      simp only [hex_digits_fuel, List.mem_cons] at hd
      rcases hd with hd | hd
      · exact hd ▸ Nat.mod_lt _ (by omega)
      · exact ih ((n + 1) / 16) d hd

theorem of_hex_hex_digits_fuel : ∀ (fuel n : Nat), n ≤ fuel →
    of_hex (hex_digits_fuel fuel n) = n := by
  intro fuel
  induction fuel with
  | zero =>
    intro n hn
    have h0 : n = 0 := by omega
    subst h0
    simp [hex_digits_fuel, of_hex]
  | succ fuel ih =>
    intro n hn
    cases n with
    | zero => simp [hex_digits_fuel, of_hex]
    | succ n =>
      simp only [hex_digits_fuel, of_hex]
      have hdiv : (n + 1) / 16 < n + 1 := Nat.div_lt_self (by omega) (by omega)
      rw [ih ((n + 1) / 16) (by omega)]
      omega

theorem hex_digits_inj {m n : Nat} (h : hex_digits m = hex_digits n) : m = n := by
  have hm : of_hex (hex_digits m) = m := of_hex_hex_digits_fuel m m (le_refl m)
  have hn : of_hex (hex_digits n) = n := of_hex_hex_digits_fuel n n (le_refl n)
  have hthis : of_hex (hex_digits m) = of_hex (hex_digits n) := by rw [h]
  rw [hm, hn] at hthis
  exact hthis

theorem hex_char_inj_fin : ∀ (a b : Fin 16), hex_char a.val = hex_char b.val → a = b := by
  decide

theorem hex_char_inj {a b : Nat} (ha : a < 16) (hb : b < 16)
    (h : hex_char a = hex_char b) : a = b := by
  have hf := hex_char_inj_fin ⟨a, ha⟩ ⟨b, hb⟩ h
  exact congrArg Fin.val hf

theorem map_hex_char_inj : ∀ {l1 l2 : List Nat}, (∀ d ∈ l1, d < 16) →
    (∀ d ∈ l2, d < 16) → l1.map hex_char = l2.map hex_char → l1 = l2 := by
  intro l1
  induction l1 with
  | nil =>
    intro l2 h1 h2 h
    cases l2 with
    | nil => rfl
    | cons d2 rest2 => simp at h
  | cons d rest ih =>
    intro l2 h1 h2 h
    cases l2 with
    | nil => simp at h
    | cons d2 rest2 =>
      simp only [List.map_cons, List.cons.injEq] at h
      have hd : d = d2 := hex_char_inj (h1 d (List.mem_cons_self d rest))
        (h2 d2 (List.mem_cons_self d2 rest2)) h.1
      rw [hd, ih (fun x hx => h1 x (List.mem_cons_of_mem _ hx))
        (fun x hx => h2 x (List.mem_cons_of_mem _ hx)) h.2]

theorem nat_to_hex_inj {m n : Nat} (hm : 0 < m) (hn : 0 < n)
    (h : nat_to_hex m = nat_to_hex n) : m = n := by
  unfold nat_to_hex at h
  rw [if_neg (by omega), if_neg (by omega)] at h
  have hchars : (hex_digits m).reverse.map hex_char =
      (hex_digits n).reverse.map hex_char := congrArg String.data h
  have hrev : (hex_digits m).reverse = (hex_digits n).reverse :=
    map_hex_char_inj
      (fun d hd => hex_digits_fuel_lt m m d (List.mem_reverse.mp hd))
      (fun d hd => hex_digits_fuel_lt n n d (List.mem_reverse.mp hd)) hchars
  exact hex_digits_inj (List.reverse_injective hrev)

/-! ### Broadcast characterization -/

theorem broadcast_msg_eq (targets : List Conn) (write_fails : Conn → Bool)
    (msg : ServerMsg) :
    broadcast_msg targets write_fails msg =
      ((targets.takeWhile (fun s => ! write_fails s)).map (fun s => (s, msg)),
        if targets.all (fun s => ! write_fails s) then .ok ()
        else .error "WebSocketClosedError") := by
  induction targets with
  | nil => rfl
  | cons sub rest ih =>
    by_cases h : write_fails sub
    · simp [broadcast_msg, h, List.takeWhile_cons, List.all_cons]
    · simp [broadcast_msg, h, ih, List.takeWhile_cons, List.all_cons]

/-! ### Claim theorems -/

/-- Claim C1 (code bug): on a pairing whose assignment_id is absent from the
assignments, `merge_assignments_with_pairings` does print exactly one
diagnostic naming the id and the context label, but then still executes
`processed_assignments[assign_id].update(...)` and raises `KeyError`
instead of dropping the pairing and returning the empty list: the merge
does not complete. -/
theorem merge_missing_assignment_keyerror :
    merge_assignments_with_pairings []
      [[("assignment_id", "a9"), ("status", "done")]] "run 1" =
      (["assignment a9 missing from assign table for run 1"],
        .error "KeyError: a9") := by
  rfl

/-- Claim C2 (counterexample): with subscribers 1, 2, 3 and the write to
connection 2 failing, the message is delivered only to connection 1 (not
to 3), the caller observes the raised error, and the failing connection's
id "i2" is still in the subscriber mapping afterwards — the write failure
is not isolated. -/
theorem broadcast_failure_counterexample :
    (broadcast_to_subs [("i1", 1), ("i2", 2), ("i3", 3)] (fun c => c == 2)
      (ServerMsg.mk "update" "x")).2.2 = .error "WebSocketClosedError" ∧
    (3, ServerMsg.mk "update" "x") ∉
      (broadcast_to_subs [("i1", 1), ("i2", 2), ("i3", 3)] (fun c => c == 2)
        (ServerMsg.mk "update" "x")).2.1 ∧
    "i2" ∈ alist_keys (broadcast_to_subs [("i1", 1), ("i2", 2), ("i3", 3)]
      (fun c => c == 2) (ServerMsg.mk "update" "x")).1 := by
  refine ⟨rfl, by decide, by decide⟩

/-- Claim C2 (amended): `broadcast_msg` writes to the targets in order and a
write failure aborts the fan-out: exactly the targets before the first
failing one receive the message, the exception propagates to the caller
when any target fails, and the subscriber mapping is left untouched. -/
theorem broadcast_write_failure_aborts (subs : List (String × Conn))
    (write_fails : Conn → Bool) (msg : ServerMsg) :
    broadcast_to_subs subs write_fails msg =
      (subs,
        ((alist_values subs).takeWhile (fun s => ! write_fails s)).map
          (fun s => (s, msg)),
        if (alist_values subs).all (fun s => ! write_fails s) then .ok ()
        else .error "WebSocketClosedError") := by
  unfold broadcast_to_subs
  rw [broadcast_msg_eq]

/-- Claim C3 (counterexample): on a payload the JSON decoder rejects,
`SocketHandler.on_message` logs the payload and sends nothing, but the
handler does not complete normally: the decode error escapes uncaught
(so the transport layer, not the handler, decides the connection's fate). -/
theorem on_message_decode_error_counterexample :
    (on_message "not json" (.error "ValueError")).1 =
      ["from web client: not json"] ∧
    (on_message "not json" (.error "ValueError")).2.1 = [] ∧
    (on_message "not json" (.error "ValueError")).2.2 ≠ .ok () := by
  exact ⟨rfl, rfl, fun h => Except.noConfusion h⟩

/-- Claim C3 (amended): for every inbound message whose decode fails,
`on_message` logs the raw payload, sends no response, and propagates the
decode exception out of the handler (there is no try/except around
`json_decode`, so the handler itself neither closes nor keeps the
connection — the error reaches the framework). -/
theorem on_message_decode_error_propagates (message e : String) :
    on_message message (.error e) =
      (["from web client: " ++ message], [], .error e) := rfl

/-- Claim C7 (counterexample): two registrations whose clock reads
`int(time.time() * 10000000)` fall in the same tick receive the same
identity from `get_rand_id` — identities are not always pairwise
distinct. -/
theorem get_rand_id_collision_counterexample :
    ¬ (([5, 5].map get_rand_id).Pairwise (fun x y => x ≠ y)) := by
  decide

/-- Claim C7 (amended): registrations whose clock ticks are positive and
pairwise distinct receive pairwise distinct identities: `get_rand_id` is
injective on positive ticks, so distinctness holds exactly when no two
registrations observe the same `int(time.time() * 10000000)` value. -/
theorem get_rand_id_distinct_ticks (ticks : List Nat)
    (hpos : ∀ t ∈ ticks, 0 < t) (hnd : ticks.Pairwise (fun x y => x ≠ y)) :
    (ticks.map get_rand_id).Pairwise (fun x y => x ≠ y) := by
  rw [List.pairwise_map]
  refine hnd.imp_of_mem ?_
  intro a b ha hb hab hid
  exact hab (nat_to_hex_inj (hpos a ha) (hpos b hb) hid)

/-- Witness for C7: ticks 5 and 6 yield distinct identities. -/
theorem get_rand_id_distinct_ticks_witness :
    ([5, 6].map get_rand_id).Pairwise (fun x y => x ≠ y) :=
  get_rand_id_distinct_ticks [5, 6] (by decide) (by decide)

/-- Claim C8: opening a fresh connection (handler not yet among the
subscriber values, generated id not yet a key) and then closing it returns
the subscriber mapping to exactly its previous state, and `on_close` for
an id that is absent from the mapping is a no-op. -/
theorem open_close_round_trip (conn : Conn) (tick : Nat)
    (subs : List (String × Conn))
    (h1 : conn ∉ alist_values subs) (h2 : get_rand_id tick ∉ alist_keys subs) :
    on_close conn (get_rand_id tick) (socket_open conn tick subs).2.1 = subs ∧
    ∀ (subs' : List (String × Conn)) (sid' : String) (conn' : Conn),
      sid' ∉ alist_keys subs' → on_close conn' sid' subs' = subs' := by
  constructor
  · have hopen : (socket_open conn tick subs).2.1 =
        subs ++ [(get_rand_id tick, conn)] := by
      simp only [socket_open]
      rw [if_neg h1]
      exact alist_set_eq_append_of_not_mem conn h2
    have hmem : conn ∈ alist_values (subs ++ [(get_rand_id tick, conn)]) := by
      rw [alist_values_append]
      simp
    rw [hopen]
    unfold on_close
    rw [if_pos hmem]
    exact alist_del_append_self conn h2
  · intro subs' sid' conn' hsid
    unfold on_close
    by_cases hc : conn' ∈ alist_values subs'
    · rw [if_pos hc]
      exact alist_del_of_not_mem hsid
    · rw [if_neg hc]

/-- Witness for C8: a concrete fresh open followed by close restores the
registry, at connection 7, tick 5, over the registry [("aa", 3)]. -/
theorem open_close_round_trip_witness :
    on_close 7 (get_rand_id 5) (socket_open 7 5 [("aa", 3)]).2.1 = [("aa", 3)] ∧
    ∀ (subs' : List (String × Conn)) (sid' : String) (conn' : Conn),
      sid' ∉ alist_keys subs' → on_close conn' sid' subs' = subs' :=
  open_close_round_trip 7 5 [("aa", 3)] (by decide) (by decide)

/-- Claim C9: on open of a fresh connection, the only message written during
`SocketHandler.open` is the register command carrying the assigned id
(`broadcast_default` sends nothing), so it precedes any other
server-to-client message, and that id is already a key of the subscriber
mapping produced by the open. -/
theorem open_registers_then_sends_register (conn : Conn) (tick : Nat)
    (subs : List (String × Conn)) (h : conn ∉ alist_values subs) :
    (socket_open conn tick subs).2.2 =
      [ServerMsg.mk "register" (socket_open conn tick subs).1] ∧
    (socket_open conn tick subs).1 ∈
      alist_keys (socket_open conn tick subs).2.1 := by
  constructor
  · rfl
  · have hset : (socket_open conn tick subs).2.1 =
        alist_set (get_rand_id tick) conn subs := by
      simp only [socket_open]
      rw [if_neg h]
    rw [hset]
    exact alist_mem_keys_set_self (get_rand_id tick) conn subs

/-- Witness for C9: a concrete fresh open at connection 7, tick 5. -/
theorem open_registers_witness :
    (socket_open 7 5 []).2.2 = [ServerMsg.mk "register" (socket_open 7 5 []).1] ∧
    (socket_open 7 5 []).1 ∈ alist_keys (socket_open 7 5 []).2.1 :=
  open_registers_then_sends_register 7 5 [] (by decide)

theorem app_step_sources (st : AppState) (ev : AppEvent) :
    (app_step st ev).sources = st.sources := by
  cases ev <;> rfl

/-- Claim C10: starting from `Application.__init__` (both mappings empty), no
socket event (open, message, close) ever inserts into `sources`, so in
every reachable state the sources mapping is empty and `send_to_sources`
delivers to zero targets. -/
theorem sources_always_empty (events : List AppEvent) :
    (events.foldl app_step init_state).sources = [] ∧
    ∀ msg : ServerMsg,
      send_to_sources (events.foldl app_step init_state).sources msg = [] := by
  have hsrc : ∀ (evs : List AppEvent) (st : AppState),
      (evs.foldl app_step st).sources = st.sources := by
    intro evs
    induction evs with
    | nil => intro st; rfl
    | cons ev rest ih =>
      intro st
      rw [List.foldl_cons, ih, app_step_sources]
  have h0 : (events.foldl app_step init_state).sources = [] := hsrc events init_state
  exact ⟨h0, fun msg => by rw [h0]; rfl⟩

/-- Claim C4 (counterexample): with two assignment records sharing
assignment_id "a1" and no pairings, the first record matches no pairing
yet does not appear in the output — the later record overwrites it in the
id-keyed mapping, so "every unmatched record of A appears unmodified"
fails for duplicate ids. -/
theorem merge_duplicate_assignment_counterexample :
    merge_assignments_with_pairings
      [[("assignment_id", "a1"), ("f", "1")], [("assignment_id", "a1"), ("f", "2")]]
      [] "x" = ([], .ok [[("assignment_id", "a1"), ("f", "2")]]) ∧
    row_to_dict [("assignment_id", "a1"), ("f", "1")] ∉
      [[("assignment_id", "a1"), ("f", "2")]] := by
  exact ⟨rfl, by decide⟩

/-- Claim C4 (amended): whenever the merge returns (does not raise), the
assignment_id field of every returned record is the assignment_id of some
record of A, and every record of A whose assignment_id is carried by no
other (differing) record of A and matches no pairing of P appears in the
output as its unmodified dict. -/
theorem merge_output_keys_and_unmatched (A P : List Row) (log_id : String)
    (ds : List String) (out : List Dict)
    (hok : merge_assignments_with_pairings A P log_id = (ds, .ok out)) :
    (∀ d ∈ out, ∀ aid, alist_get? "assignment_id" d = some aid →
      ∃ r ∈ A, alist_get? "assignment_id" (row_to_dict r) = some aid) ∧
    (∀ r ∈ A, ∀ aid, alist_get? "assignment_id" (row_to_dict r) = some aid →
      (∀ r' ∈ A, alist_get? "assignment_id" (row_to_dict r') = some aid →
        row_to_dict r' = row_to_dict r) →
      (∀ p ∈ P, alist_get? "assignment_id" (row_to_dict p) ≠ some aid) →
      row_to_dict r ∈ out) := by
  obtain ⟨m0, mf, hA, hP, hout⟩ := merge_ok_elim hok
  constructor
  · intro d hd aid hid
    subst hout
    obtain ⟨k, hk⟩ := alist_exists_key_of_mem_values hd
    have hinv := process_pairings_ok_invariant
      (process_assignments_ok_invariant (by simp) hA) hP
    have hidk : alist_get? "assignment_id" d = some k := hinv (k, d) hk
    have haid : aid = k := Option.some.inj (hid.symm.trans hidk)
    subst haid
    have hkeys : aid ∈ alist_keys mf := alist_mem_keys_of_mem hk
    rw [process_pairings_ok_keys hP] at hkeys
    rcases process_assignments_ok_keys hA aid hkeys with hbad | hgood
    · simp at hbad
    · exact hgood
  · intro r hr aid hid huniq hnp
    subst hout
    have hget0 : alist_get? aid m0 = some (row_to_dict r) :=
      process_assignments_ok_get_unique hr hid huniq hA
    have hgetf : alist_get? aid mf = some (row_to_dict r) := by
      rw [process_pairings_ok_get_preserve hnp hP]
      exact hget0
    exact alist_mem_values_of_get? hgetf

/-- Witness for C4: a single assignment with no pairings survives the merge
unmodified. -/
theorem merge_output_keys_and_unmatched_witness :
    merge_assignments_with_pairings
      [[("assignment_id", "a1"), ("worker_id", "w1")]] [] "x" =
      ([], .ok [[("assignment_id", "a1"), ("worker_id", "w1")]]) ∧
    row_to_dict [("assignment_id", "a1"), ("worker_id", "w1")] ∈
      [[("assignment_id", "a1"), ("worker_id", "w1")]] := by
  refine ⟨by rfl, ?_⟩
  have h := merge_output_keys_and_unmatched
    [[("assignment_id", "a1"), ("worker_id", "w1")]] [] "x" []
    [[("assignment_id", "a1"), ("worker_id", "w1")]] (by rfl)
  exact h.2 [("assignment_id", "a1"), ("worker_id", "w1")] (by simp) "a1" (by rfl)
    (fun r' hr' _ => by rw [List.mem_singleton] at hr'; rw [hr']) (by simp)

/-- Claim C5: a pairing whose assignment_id matches an assignment gets its
`status` field renamed to `world_status` and its remaining fields overlaid
onto the matching assignment record, with no diagnostic. -/
theorem merge_rename_overlay (a p : Row) (log_id aid sv : String)
    (ha : alist_get? "assignment_id" (row_to_dict a) = some aid)
    (hp : alist_get? "assignment_id" (row_to_dict p) = some aid)
    (hs : alist_get? "status" (row_to_dict p) = some sv) :
    merge_assignments_with_pairings [a] [p] log_id =
      ([], .ok [dict_update (row_to_dict a)
        (alist_del "status" (alist_set "world_status" sv (row_to_dict p)))]) := by
  have hA : process_assignments [a] [] = .ok [(aid, row_to_dict a)] := by
    simp [process_assignments, ha, alist_set]
  have hstep : pairing_step log_id ([], .ok [(aid, row_to_dict a)]) p =
      ([], .ok [(aid, dict_update (row_to_dict a)
        (alist_del "status" (alist_set "world_status" sv (row_to_dict p))))]) := by
    have hget : alist_get? aid [(aid, row_to_dict a)] = some (row_to_dict a) := by
      simp [alist_get?]
    rw [pairing_step_eq log_id [] [(aid, row_to_dict a)] p hp hs hget]
    simp [alist_set]
  have hP : process_pairings log_id [p] ([], .ok [(aid, row_to_dict a)]) =
      ([], .ok [(aid, dict_update (row_to_dict a)
        (alist_del "status" (alist_set "world_status" sv (row_to_dict p))))]) := by
    simpa [process_pairings] using hstep
  simp [merge_assignments_with_pairings, hA, hP]

/-- Witness for C5: the concrete scenario A = [{assignment_id: a1,
worker_id: w1}], P = [{assignment_id: a1, status: done}] yields
[{assignment_id: a1, worker_id: w1, world_status: done}]. -/
theorem merge_rename_overlay_witness :
    merge_assignments_with_pairings
      [[("assignment_id", "a1"), ("worker_id", "w1")]]
      [[("assignment_id", "a1"), ("status", "done")]] "task t" =
      ([], .ok [[("assignment_id", "a1"), ("worker_id", "w1"),
        ("world_status", "done")]]) := by
  have h := merge_rename_overlay
    [("assignment_id", "a1"), ("worker_id", "w1")]
    [("assignment_id", "a1"), ("status", "done")] "task t" "a1" "done"
    (by rfl) (by rfl) (by rfl)
  exact h.trans (by rfl)

/-- Claim C6 (counterexample): two pairings with the same assignment_id do
not commute — swapping them changes which status value wins, so the merge
output is not invariant under permutations of the pairings. -/
theorem merge_pairings_order_counterexample :
    [[("assignment_id", "a1"), ("status", "sx")],
      [("assignment_id", "a1"), ("status", "sy")]].Perm
      [[("assignment_id", "a1"), ("status", "sy")],
        [("assignment_id", "a1"), ("status", "sx")]] ∧
    ok_output (merge_assignments_with_pairings
      [[("assignment_id", "a1"), ("w", "1")]]
      [[("assignment_id", "a1"), ("status", "sx")],
        [("assignment_id", "a1"), ("status", "sy")]] "x") ≠
    ok_output (merge_assignments_with_pairings
      [[("assignment_id", "a1"), ("w", "1")]]
      [[("assignment_id", "a1"), ("status", "sy")],
        [("assignment_id", "a1"), ("status", "sx")]] "x") := by
  exact ⟨List.Perm.swap _ _ _, by decide⟩

/-- Claim C6 (amended): the merge is deterministic by construction, and when
the pairings carry pairwise distinct assignment_ids, any permutation of a
successfully merged pairing list produces the identical result (diagnostics
and output). -/
theorem merge_pairings_perm (A P Q : List Row) (log_id : String)
    (ds : List String) (out : List Dict) (hperm : P.Perm Q)
    (hdist : P.Pairwise (fun p q => alist_get? "assignment_id" (row_to_dict p) ≠
      alist_get? "assignment_id" (row_to_dict q)))
    (hok : merge_assignments_with_pairings A P log_id = (ds, .ok out)) :
    merge_assignments_with_pairings A Q log_id = (ds, .ok out) := by
  obtain ⟨m0, mf, hA, hP, hout⟩ := merge_ok_elim hok
  have hQ := process_pairings_perm log_id hperm hdist ([], .ok m0) ds mf hP
  simp [merge_assignments_with_pairings, hA, hQ, hout]

/-- Witness for C6: two pairings on distinct assignment ids are swapped and
the merge output is unchanged. -/
theorem merge_pairings_perm_witness :
    merge_assignments_with_pairings
      [[("assignment_id", "a1"), ("w", "1")], [("assignment_id", "a2"), ("w", "2")]]
      [[("assignment_id", "a1"), ("status", "s1")],
        [("assignment_id", "a2"), ("status", "s2")]] "x" =
      ([], .ok [[("assignment_id", "a1"), ("w", "1"), ("world_status", "s1")],
        [("assignment_id", "a2"), ("w", "2"), ("world_status", "s2")]]) :=
  merge_pairings_perm
    [[("assignment_id", "a1"), ("w", "1")], [("assignment_id", "a2"), ("w", "2")]]
    [[("assignment_id", "a2"), ("status", "s2")],
      [("assignment_id", "a1"), ("status", "s1")]]
    [[("assignment_id", "a1"), ("status", "s1")],
      [("assignment_id", "a2"), ("status", "s2")]]
    "x" []
    [[("assignment_id", "a1"), ("w", "1"), ("world_status", "s1")],
      [("assignment_id", "a2"), ("w", "2"), ("world_status", "s2")]]
    (List.Perm.swap _ _ _) (by decide) (by rfl)
